import Mathlib

/-!
Verification development for the runway CFNgin execution engine and the
two concrete modules present in the repository (`xref` lookup handler and
the `AuthAtEdge` static-site blueprint).

The engine proper (Graph, Step, Plan, the destroy Action and the
persistent-graph lock protocol) is exercised by
`tests/unit/cfngin/actions/test_destroy.py` but its implementation modules
are not part of this source tree, so those components are modelled from
the specification text; the `xref` handler and the `AuthAtEdge` blueprint
are embedded directly from their Python sources.
-/

namespace Runway

/-- Step status values `PENDING, SUBMITTED, COMPLETE, SKIPPED, FAILED`
(spec section 3, `runway.cfngin.status`). -/
inductive Status where
  | PENDING
  | SUBMITTED
  | COMPLETE
  | SKIPPED
  | FAILED
deriving DecidableEq, Repr

/-- Terminal statuses are `COMPLETE`, `SKIPPED`, `FAILED` (spec section 3). -/
def Status.isTerminal : Status → Bool
  | .COMPLETE => true
  | .SKIPPED => true
  | .FAILED => true
  | _ => false

/-- What one provider poll reports about the remote stack during a destroy:
`absent` (the `get_state` call fails with `NotFound`), `destroyed`
(`is_destroyed` holds), `inProgress` (`is_in_progress` holds), or `present`
(the stack exists with neither predicate holding, so deletion must be
requested). Spec section 6. -/
inductive ProviderCheck where
  | absent
  | destroyed
  | inProgress
  | present
deriving DecidableEq, Repr

/-- Modelled from the spec: the destroy-direction step transition
(`DestroyAction._destroy_stack`, absent from this source tree; spec
sections 4.2 and 4.5).  Given the step's current status and what the
provider check reports, it returns the new status: an absent resource
resolves to `COMPLETE` when deletion had been submitted and to `SKIPPED`
when the step never left `PENDING`; a destroyed resource resolves to
`COMPLETE`; work still in progress keeps the step `SUBMITTED`; a resource
still present has its destruction requested, moving the step to
`SUBMITTED`. -/
def destroyStackStep (prior : Status) (check : ProviderCheck) : Status :=
  match check with
  | .absent => if prior = .SUBMITTED then .COMPLETE else .SKIPPED
  | .destroyed => .COMPLETE
  | .inProgress => .SUBMITTED
  | .present => .SUBMITTED

/-- Modelled from the spec: `Step.run`'s poll loop (spec section 4.2) as the
trace of statuses it passes through.  Each cycle consumes one provider
check and records the resulting status; the loop stops at the first
terminal status. -/
def stepTrace (s : Status) : List ProviderCheck → List Status
  | [] => []
  | c :: cs =>
    let s' := destroyStackStep s c
    if s'.isTerminal then [s'] else s' :: stepTrace s' cs

/-- C1: a destroy-direction step that never left `PENDING` and whose check
reports the resource absent resolves to `SKIPPED` without ever passing
through `SUBMITTED`; a step already `SUBMITTED` whose next check reports
the resource absent resolves to `COMPLETE`. -/
theorem destroy_absent_resolution (checks : List ProviderCheck) :
    stepTrace .PENDING (.absent :: checks) = [.SKIPPED] ∧
    .SUBMITTED ∉ stepTrace .PENDING (.absent :: checks) ∧
    stepTrace .SUBMITTED (.absent :: checks) = [.COMPLETE] := by
  refine ⟨rfl, ?_, rfl⟩
  simp [stepTrace, destroyStackStep, Status.isTerminal]

/-- C7: a destroy-direction step that has reached `SUBMITTED` and whose next
check reports work still in progress remains `SUBMITTED` — a non-terminal
status — and the poll loop continues with the remaining checks rather than
stopping. -/
theorem destroy_in_progress_repolls (checks : List ProviderCheck) :
    destroyStackStep .SUBMITTED .inProgress = .SUBMITTED ∧
    Status.isTerminal .SUBMITTED = false ∧
    stepTrace .SUBMITTED (.inProgress :: checks) =
      .SUBMITTED :: stepTrace .SUBMITTED checks := by
  exact ⟨rfl, rfl, rfl⟩

/-- Observable events of one destroy `Action.run` invocation (spec
sections 4.5 and 3, `PersistentGraph` lifecycle). -/
inductive ActionEvent where
  | generatePlan
  | planOutline
  | lockGraph
  | planExecute
  | unlockGraph
deriving DecidableEq, Repr

/-- The process-level result an Action reports: a neutral no-op result for
an unconfirmed destructive run, or the propagated outcome of `Plan.execute`
(`ok` on success, `error` when execution raised). -/
inductive ActionResult where
  | noop
  | executed (outcome : Except String Unit)
deriving Repr

/-- Modelled from the spec: `Plan.execute` as seen by the Action layer — it
emits one `planExecute` event and either returns or raises. -/
def planExecuteCall (raises : Bool) : List ActionEvent × Except String Unit :=
  ([.planExecute], if raises then .error "PlanFailed" else .ok ())

/-- Modelled from the spec: scoped acquisition with guaranteed release
(spec section 4.4, `release`) — the finaliser's events are appended to the
body's trace whether the body returned or raised. -/
def tryFinally (body : List ActionEvent × Except String Unit)
    (finaliser : List ActionEvent) : List ActionEvent × Except String Unit :=
  (body.1 ++ finaliser, body.2)

/-- Modelled from the spec: the destroy `Action.run` policy layer
(`runway.cfngin.actions.destroy`, absent from this source tree; spec
sections 4.5 and 7).  It always generates the Plan; without the explicit
confirmation flag it only outlines the Plan and returns a neutral result;
with confirmation it acquires the persistent-graph lock when persistence is
configured, executes the Plan, and releases the lock on every exit path. -/
def destroyRun (persist force raises : Bool) :
    List ActionEvent × ActionResult :=
  let plan := [ActionEvent.generatePlan]
  if force then
    let locked := plan ++ (if persist then [ActionEvent.lockGraph] else [])
    let body := tryFinally (planExecuteCall raises)
      (if persist then [ActionEvent.unlockGraph] else [])
    (locked ++ body.1, .executed body.2)
  else
    (plan ++ [ActionEvent.planOutline], .noop)

/-- C2: a destroy Action run without the confirmation flag performs zero
`Plan.execute` calls and returns the neutral no-op result; with the flag it
performs exactly one `Plan.execute` call. -/
theorem destroy_run_force_gate (persist raises : Bool) :
    (destroyRun persist false raises).1.count .planExecute = 0 ∧
    (destroyRun persist false raises).2 = .noop ∧
    (destroyRun persist true raises).1.count .planExecute = 1 := by
  refine ⟨?_, rfl, ?_⟩ <;> cases persist <;> cases raises <;> rfl

/-- C5: a persistence-enabled executing destroy run acquires the
persistent-graph lock exactly once, before the single `Plan.execute` call,
and releases it exactly once afterwards — also when execution raises: the
event trace is always `generatePlan, lockGraph, planExecute, unlockGraph`,
and the raised failure is propagated in the result. -/
theorem destroy_run_persist_lock (raises : Bool) :
    (destroyRun true true raises).1 =
      [.generatePlan, .lockGraph, .planExecute, .unlockGraph] ∧
    (destroyRun true true raises).1.count .lockGraph = 1 ∧
    (destroyRun true true raises).1.count .unlockGraph = 1 ∧
    (destroyRun true true raises).2 =
      .executed (if raises then .error "PlanFailed" else .ok ()) := by
  cases raises <;> exact ⟨rfl, rfl, rfl, rfl⟩

/-- Modelled from the spec: the dependency Graph (spec sections 3 and 4.1,
`runway.cfngin.plan.Graph`, absent from this source tree) — a set of stack
names together with, for each name, the names it directly requires. -/
structure Graph where
  nodes : List String
  deps : String → List String

/-- Modelled from the spec: `Graph.build` from a declared requirement
mapping — nodes are the declared names, and a node's dependencies are its
declared `requires` list. -/
def Graph.build (reqs : List (String × List String)) : Graph where
  nodes := reqs.map (·.1)
  deps := fun n => (((reqs.find? (fun p => p.1 = n)).map (·.2)).getD [])

/-- Modelled from the spec: `Graph.transpose` reverses every edge — in the
transposed graph a node's "dependencies" are exactly the nodes that
required it in the original graph (its dependents, the teardown order). -/
def Graph.transpose (G : Graph) : Graph where
  nodes := G.nodes
  deps := fun a => G.nodes.filter (fun b => decide (a ∈ G.deps b))

/-- Modelled from the spec: the plain edge-mapping serialization
(`Graph.to_dict`) — each node paired with its dependency list. -/
def Graph.toDict (G : Graph) : List (String × List String) :=
  G.nodes.map (fun n => (n, G.deps n))

/-- Two name lists denote the same (order-irrelevant) set. -/
def sameValueSet (xs ys : List String) : Bool :=
  xs.all (fun x => ys.contains x) && ys.all (fun y => xs.contains y)

/-- Every entry of `m1` has an entry of `m2` with the same key and the same
value set. -/
def subEdgeMap (m1 m2 : List (String × List String)) : Bool :=
  m1.all fun p => m2.any fun q => p.1 == q.1 && sameValueSet p.2 q.2

/-- Two serialized edge maps are equal as key-to-value-set mappings. -/
def sameEdgeMap (m1 m2 : List (String × List String)) : Bool :=
  subEdgeMap m1 m2 && subEdgeMap m2 m1

/-- The requirement mapping used by `TestDestroyAction` (`_get_context` in
`tests/unit/cfngin/actions/test_destroy.py`). -/
def destroyTestRequirements : List (String × List String) :=
  [("vpc", []),
   ("bastion", ["vpc"]),
   ("instance", ["vpc", "bastion"]),
   ("db", ["instance", "vpc", "bastion"]),
   ("other", ["db"])]

/-- C4: for the test requirement mapping, the transposed (destroy-direction)
graph's dependents map is exactly `vpc ↦ {bastion, instance, db},
bastion ↦ {instance, db}, instance ↦ {db}, db ↦ {other}, other ↦ {}` as a
key-to-set mapping. -/
theorem destroy_test_transposed_dict :
    sameEdgeMap ((Graph.build destroyTestRequirements).transpose.toDict)
      [("vpc", ["bastion", "instance", "db"]),
       ("bastion", ["instance", "db"]),
       ("instance", ["db"]),
       ("db", ["other"]),
       ("other", [])] = true := by
  decide

/-- C6: for any graph whose dependencies all lie among its nodes,
transposing twice yields a graph with the same nodes and, node for node,
the same dependency set — transposition is an involution on the serialized
edge mapping. -/
theorem transpose_involution (G : Graph)
    (hclosed : ∀ a ∈ G.nodes, ∀ b ∈ G.deps a, b ∈ G.nodes) :
    G.transpose.transpose.nodes = G.nodes ∧
    ∀ a ∈ G.nodes, ∀ b, b ∈ G.transpose.transpose.deps a ↔ b ∈ G.deps a := by
  refine ⟨rfl, fun a ha b => ?_⟩
  simp only [Graph.transpose, List.mem_filter, decide_eq_true_eq]
  constructor
  · rintro ⟨-, -, hb⟩
    exact hb
  · intro hb
    exact ⟨hclosed a ha b hb, ha, hb⟩

/-- Witness for C6: the test requirement graph is dependency-closed, and
double transposition preserves, e.g., membership of `vpc` in `bastion`'s
dependency set. -/
theorem transpose_involution_witness :
    (∀ a ∈ (Graph.build destroyTestRequirements).nodes,
      ∀ b ∈ (Graph.build destroyTestRequirements).deps a,
        b ∈ (Graph.build destroyTestRequirements).nodes) ∧
    ("vpc" ∈
        ((Graph.build destroyTestRequirements).transpose.transpose.deps
          "bastion") ↔
      "vpc" ∈ (Graph.build destroyTestRequirements).deps "bastion") :=
  ⟨by decide,
   (transpose_involution (Graph.build destroyTestRequirements)
      (by decide)).2 "bastion" (by decide) "vpc"⟩

/-- Modelled from the spec: `deconstruct` lives in
`runway.cfngin.lookups.handlers.output`, absent from this source tree; per
the `xref` docstring the lookup value has the form
`<stack_name>::<output_name>`, so it is split on the first `::`. -/
def deconstruct (value : String) : String × String :=
  match value.splitOn "::" with
  | [stackName, outputName] => (stackName, outputName)
  | _ => (value, "")

/-- Observable effects of one `XrefLookup.handle` call: whether this call
logged the deprecation warning, how many `provider.get_output` calls it
made, and its outcome (the fetched output, or the raised error). From
`src/runway/cfngin/lookups/handlers/xref.py`. -/
structure XrefCall where
  warned : Bool
  getOutputCalls : Nat
  result : Except String String
deriving Repr

/-- `XrefLookup.handle` from `src/runway/cfngin/lookups/handlers/xref.py`,
with the module-level `XREF_PRESISTENT_STATE["has_warned"]` flag passed in
and returned explicitly, and the provider abstracted as its `get_output`
function.  The warning is logged when the flag is unset, after which the
flag is set; then a missing provider raises `ValueError("Provider is
required")`; otherwise the value is deconstructed and the output fetched. -/
def XrefLookup.handle (value : String)
    (provider : Option (String → String → String)) (hasWarned : Bool) :
    XrefCall × Bool :=
  let warnedNow := !hasWarned
  match provider with
  | none =>
    ({ warned := warnedNow, getOutputCalls := 0,
       result := .error "Provider is required" }, true)
  | some p =>
    let decon := deconstruct value
    ({ warned := warnedNow, getOutputCalls := 1,
       result := .ok (p decon.1 decon.2) }, true)

/-- A sequence of `XrefLookup.handle` calls within one process, threading
the module-level flag from call to call. -/
def XrefLookup.runCalls
    (calls : List (String × Option (String → String → String)))
    (hasWarned : Bool) : List XrefCall × Bool :=
  match calls with
  | [] => ([], hasWarned)
  | (v, p) :: rest =>
    let first := XrefLookup.handle v p hasWarned
    let later := XrefLookup.runCalls rest first.2
    (first.1 :: later.1, later.2)

/-- Any `handle` call leaves the flag set. -/
theorem XrefLookup.handle_sets_flag (value : String)
    (provider : Option (String → String → String)) (hasWarned : Bool) :
    (XrefLookup.handle value provider hasWarned).2 = true := by
  cases provider <;> rfl

/-- Once the flag is set, no call in any further sequence warns, and the
flag stays set. -/
theorem XrefLookup.runCalls_warned_none
    (calls : List (String × Option (String → String → String))) :
    (XrefLookup.runCalls calls true).1.countP (fun c => c.warned) = 0 ∧
    (XrefLookup.runCalls calls true).2 = true := by
  induction calls with
  | nil => exact ⟨rfl, rfl⟩
  | cons c rest ih =>
    obtain ⟨v, p⟩ := c
    cases p <;>
      simpa [XrefLookup.runCalls, XrefLookup.handle, List.countP_cons] using ih

/-- C8: across any nonempty sequence of `XrefLookup.handle` calls in one
process starting from the unset module flag, the deprecation warning is
logged exactly once — by the first call — and the flag ends (and stays)
set, so no later call warns again. -/
theorem xref_warns_exactly_once
    (calls : List (String × Option (String → String → String)))
    (hne : calls ≠ []) :
    (XrefLookup.runCalls calls false).1.countP (fun c => c.warned) = 1 ∧
    ((XrefLookup.runCalls calls false).1.head?.map (fun c => c.warned)) =
      some true ∧
    (XrefLookup.runCalls calls false).2 = true := by
  match calls with
  | [] => exact absurd rfl hne
  | (v, p) :: rest =>
    have hrest := XrefLookup.runCalls_warned_none rest
    have hflag := XrefLookup.handle_sets_flag v p false
    cases p <;>
      simp_all [XrefLookup.runCalls, XrefLookup.handle, List.countP_cons]

/-- Witness for C8: a concrete two-call sequence (both without a provider)
warns exactly once, on the first call. -/
theorem xref_warns_exactly_once_witness :
    ((["a::b", "c::d"].map (fun v => (v, none))) ≠
      ([] : List (String × Option (String → String → String)))) ∧
    (XrefLookup.runCalls (["a::b", "c::d"].map (fun v => (v, none)))
        false).1.countP (fun c => c.warned) = 1 :=
  ⟨by simp,
   (xref_warns_exactly_once (["a::b", "c::d"].map (fun v => (v, none)))
      (by simp)).1⟩

/-- C9: a `handle` call with no provider raises
`ValueError("Provider is required")`, performs no `get_output` call, and
still runs the warning logic first — the flag ends set, and the call warns
exactly when the flag was previously unset. -/
theorem xref_no_provider_raises (value : String) (hasWarned : Bool) :
    (XrefLookup.handle value none hasWarned).1.result =
      .error "Provider is required" ∧
    (XrefLookup.handle value none hasWarned).1.getOutputCalls = 0 ∧
    (XrefLookup.handle value none hasWarned).1.warned = !hasWarned ∧
    (XrefLookup.handle value none hasWarned).2 = true :=
  ⟨rfl, rfl, rfl, rfl⟩

/-- One entry of the `custom_error_responses` blueprint variable: a dict
with `ErrorCode`, `ResponseCode` and `ResponsePagePath` keys
(`src/runway/blueprints/staticsite/auth_at_edge.py`). -/
structure ErrorResponseConfig where
  ErrorCode : Nat
  ResponseCode : Nat
  ResponsePagePath : String
deriving DecidableEq, Repr

/-- A `cloudfront.CustomErrorResponse` resource as built by
`AuthAtEdge._get_error_responses`. -/
structure CustomErrorResponse where
  ErrorCode : Nat
  ResponseCode : Nat
  ResponsePagePath : String
deriving DecidableEq, Repr

/-- The two blueprint variables `_get_error_responses` reads. -/
structure AuthAtEdgeVariables where
  custom_error_responses : List ErrorResponseConfig
  NonSPAMode : Bool
deriving DecidableEq, Repr

/-- `AuthAtEdge._get_error_responses` from
`src/runway/blueprints/staticsite/auth_at_edge.py`: when
`custom_error_responses` is non-empty (Python truthiness of the list)
return one `CustomErrorResponse` per entry; otherwise return nothing in
`NonSPAMode`; otherwise return the standard single-page-app response
mapping error 404 to response 200 at `/index.html`. -/
def AuthAtEdge.getErrorResponses (vars : AuthAtEdgeVariables) :
    List CustomErrorResponse :=
  if !vars.custom_error_responses.isEmpty then
    vars.custom_error_responses.map fun response =>
      { ErrorCode := response.ErrorCode,
        ResponseCode := response.ResponseCode,
        ResponsePagePath := response.ResponsePagePath }
  else if vars.NonSPAMode then
    []
  else
    [{ ErrorCode := 404, ResponseCode := 200, ResponsePagePath := "/index.html" }]

/-- C10: `_get_error_responses` returns the one-for-one translation of a
non-empty `custom_error_responses` list (taking precedence over
`NonSPAMode`); with no custom responses it returns the empty list in
`NonSPAMode` and otherwise exactly the single 404-to-200 `/index.html`
response. -/
theorem auth_at_edge_error_responses (v : AuthAtEdgeVariables) :
    (v.custom_error_responses ≠ [] →
      AuthAtEdge.getErrorResponses v =
        v.custom_error_responses.map fun response =>
          { ErrorCode := response.ErrorCode,
            ResponseCode := response.ResponseCode,
            ResponsePagePath := response.ResponsePagePath }) ∧
    (v.custom_error_responses = [] → v.NonSPAMode = true →
      AuthAtEdge.getErrorResponses v = []) ∧
    (v.custom_error_responses = [] → v.NonSPAMode = false →
      AuthAtEdge.getErrorResponses v =
        [{ ErrorCode := 404, ResponseCode := 200,
           ResponsePagePath := "/index.html" }]) := by
  refine ⟨fun hne => ?_, fun he hs => ?_, fun he hs => ?_⟩
  · have h : v.custom_error_responses.isEmpty = false := by
      simp [List.isEmpty_iff, hne]
    simp [AuthAtEdge.getErrorResponses, h]
  · simp [AuthAtEdge.getErrorResponses, he, hs]
  · simp [AuthAtEdge.getErrorResponses, he, hs]

/-- Witness for C10: with one custom response configured and `NonSPAMode`
set, the custom response wins. -/
theorem auth_at_edge_error_responses_witness :
    (({ custom_error_responses := [⟨403, 200, "/error.html"⟩],
        NonSPAMode := true } : AuthAtEdgeVariables).custom_error_responses ≠
      []) ∧
    AuthAtEdge.getErrorResponses
        { custom_error_responses := [⟨403, 200, "/error.html"⟩],
          NonSPAMode := true } =
      [⟨403, 200, "/error.html"⟩] :=
  ⟨by decide,
   ((auth_at_edge_error_responses
      { custom_error_responses := [⟨403, 200, "/error.html"⟩],
        NonSPAMode := true }).1 (by decide)).trans rfl⟩

/-- Modelled from the spec: the record the Plan keeps for one finished
Step — its terminal status, the failed ancestor its skip reason references
(when it was skipped because of a failure; `none` otherwise), and whether
its operation was invoked (spec sections 3 and 4.3). -/
structure StepResult where
  status : Status
  failedAncestor : Option String
  invoked : Bool
deriving DecidableEq, Repr

/-- Modelled from the spec: a Plan (`runway.cfngin.plan.Plan`, absent from
this source tree; spec sections 3 and 4.3) — the step names, the
active-direction dependency function, and each step's operation modelled
by the terminal status it reports when invoked (the poll loop of one step
is abstracted into its final status, as in `Step.run`). -/
structure PlanSpec where
  steps : List String
  deps : String → List String
  op : String → Status

/-- The scheduler's record: each step's result once it has finished,
`none` while the step has not yet started. -/
abbrev PlanState := String → Option StepResult

/-- When the finished dependency `d` blocks its dependents: `some a` names
the failed ancestor their skip reason will reference — `d` itself when `d`
ended `FAILED`, or the ancestor `d`'s own skip reason references; `none`
when `d` does not block. -/
def blockingAncestor (st : PlanState) (d : String) : Option String :=
  match st d with
  | none => none
  | some r => if r.status = .FAILED then some d else r.failedAncestor

/-- Modelled from the spec: one scheduling decision (spec section 4.3) —
the first not-yet-started step all of whose dependencies have finished,
together with the result it will be finished with: `SKIPPED` referencing
the failed ancestor when some dependency failed or was skipped because of
a failure (its operation is never invoked), and the invoked operation's
status otherwise. -/
def findActionable (P : PlanSpec) (st : PlanState) :
    List String → Option (String × StepResult)
  | [] => none
  | x :: rest =>
    if (st x).isSome then findActionable P st rest
    else if (P.deps x).all (fun d => (st d).isSome) then
      match (P.deps x).findSome? (blockingAncestor st) with
      | some a => some (x, ⟨.SKIPPED, some a, false⟩)
      | none => some (x, ⟨P.op x, none, true⟩)
    else findActionable P st rest

/-- Record a finished step's result. -/
def updateState (st : PlanState) (s : String) (r : StepResult) : PlanState :=
  fun x => if x = s then some r else st x

/-- Modelled from the spec: the scheduling loop — repeatedly finish an
actionable step until none remains (or the fuel, one unit per step, runs
out). -/
def iterate (P : PlanSpec) : Nat → PlanState → PlanState
  | 0, st => st
  | n + 1, st =>
    match findActionable P st P.steps with
    | none => st
    | some (s, r) => iterate P n (updateState st s r)

/-- Modelled from the spec: `Plan.execute` — run the scheduling loop from
the all-`PENDING` state to completion. -/
def Plan.execute (P : PlanSpec) : PlanState :=
  iterate P P.steps.length (fun _ => none)

/-- Modelled from the spec: the failed step set reported by `PlanOutcome`
(spec section 4.3). -/
def Plan.failedSet (P : PlanSpec) : List String :=
  P.steps.filter fun s =>
    match Plan.execute P s with
    | some r => decide (r.status = .FAILED)
    | none => false

/-- `DependsOn deps a b`: step `a` transitively requires step `b` in the
active direction. -/
inductive DependsOn (deps : String → List String) : String → String → Prop where
  | direct {a b : String} : b ∈ deps a → DependsOn deps a b
  | step {a b c : String} :
      b ∈ deps a → DependsOn deps b c → DependsOn deps a c

/-- A successful `findActionable` returns a not-yet-started step of the
scanned list whose dependencies all finished, finished either by skipping
(some dependency blocks) or by invoking its operation (none blocks). -/
theorem findActionable_some {P : PlanSpec} {st : PlanState} {s : String}
    {r : StepResult} {l : List String}
    (h : findActionable P st l = some (s, r)) :
    s ∈ l ∧ st s = none ∧ (∀ d ∈ P.deps s, (st d).isSome) ∧
      (((P.deps s).findSome? (blockingAncestor st) = none ∧
          r = ⟨P.op s, none, true⟩) ∨
        ∃ a, (P.deps s).findSome? (blockingAncestor st) = some a ∧
          r = ⟨.SKIPPED, some a, false⟩) := by
  induction l with
  | nil => simp [findActionable] at h
  | cons x rest ih =>
    rw [findActionable] at h
    cases hsx : st x with
    | some v =>
      rw [hsx] at h
      simp only [Option.isSome_some, if_true] at h
      obtain ⟨h1, h2⟩ := ih h
      exact ⟨List.mem_cons_of_mem _ h1, h2⟩
    | none =>
      rw [hsx] at h
      simp only [Option.isSome_none, Bool.false_eq_true, if_false] at h
      by_cases hall : (P.deps x).all (fun d => (st d).isSome) = true
      · rw [if_pos hall] at h
        cases hfs : (P.deps x).findSome? (blockingAncestor st) with
        | some a =>
          rw [hfs] at h
          obtain ⟨rfl, rfl⟩ : x = s ∧ (⟨.SKIPPED, some a, false⟩ : StepResult) = r := by
            simpa using h
          refine ⟨List.mem_cons_self _ _, hsx, ?_, Or.inr ⟨a, hfs, rfl⟩⟩
          intro d hd
          simpa using List.all_eq_true.mp hall d hd
        | none =>
          rw [hfs] at h
          obtain ⟨rfl, rfl⟩ : x = s ∧ (⟨P.op x, none, true⟩ : StepResult) = r := by
            simpa using h
          refine ⟨List.mem_cons_self _ _, hsx, ?_, Or.inl ⟨hfs, rfl⟩⟩
          intro d hd
          simpa using List.all_eq_true.mp hall d hd
      · rw [if_neg hall] at h
        obtain ⟨h1, h2⟩ := ih h
        exact ⟨List.mem_cons_of_mem _ h1, h2⟩

/-- If the scanned list holds a not-yet-started step whose dependencies
have all finished, `findActionable` succeeds. -/
theorem findActionable_isSome {P : PlanSpec} {st : PlanState} {s : String}
    {l : List String} (hmem : s ∈ l) (hnone : st s = none)
    (hready : ∀ d ∈ P.deps s, (st d).isSome) :
    (findActionable P st l).isSome := by
  induction l with
  | nil => simp at hmem
  | cons x rest ih =>
    rw [findActionable]
    cases hsx : st x with
    | some v =>
      simp only [Option.isSome_some, if_true]
      rcases List.mem_cons.mp hmem with rfl | hmem'
      · rw [hnone] at hsx; exact absurd hsx (by simp)
      · exact ih hmem'
    | none =>
      simp only [Option.isSome_none, Bool.false_eq_true, if_false]
      by_cases hall : (P.deps x).all (fun d => (st d).isSome) = true
      · rw [if_pos hall]
        cases (P.deps x).findSome? (blockingAncestor st) <;> rfl
      · rw [if_neg hall]
        rcases List.mem_cons.mp hmem with rfl | hmem'
        · exact absurd (List.all_eq_true.mpr fun d hd => hready d hd) hall
        · exact ih hmem'

/-- Invariant of the scheduling loop: finished steps lie in the Plan,
every invoked step ran with all dependencies finished and unblocked and
carries its operation's status, and every non-invoked step is `SKIPPED`
with a reason referencing a finished `FAILED` transitive dependency. -/
structure PlanInv (P : PlanSpec) (st : PlanState) : Prop where
  dom : ∀ x r, st x = some r → x ∈ P.steps
  run : ∀ x r, st x = some r → r.invoked = true →
    r.status = P.op x ∧ r.failedAncestor = none ∧
      ∀ d ∈ P.deps x, (st d).isSome ∧ blockingAncestor st d = none
  skip : ∀ x r, st x = some r → r.invoked = false →
    r.status = .SKIPPED ∧ ∃ a, r.failedAncestor = some a ∧
      (∃ ra, st a = some ra ∧ ra.status = .FAILED) ∧ DependsOn P.deps x a

/-- Updating an unstarted step leaves every finished step's entry as it
was. -/
theorem updateState_stable {st : PlanState} {s : String} {r : StepResult}
    (hs : st s = none) {x : String} {rx : StepResult} (hx : st x = some rx) :
    updateState st s r x = some rx := by
  unfold updateState
  rcases eq_or_ne x s with rfl | hne
  · rw [hs] at hx; exact absurd hx (by simp)
  · rw [if_neg hne]; exact hx

/-- Updating an unstarted step does not change what blocks dependents
through an already finished step. -/
theorem blockingAncestor_stable {st : PlanState} {s : String}
    {r : StepResult} (hs : st s = none) {d : String}
    (hd : (st d).isSome) :
    blockingAncestor (updateState st s r) d = blockingAncestor st d := by
  obtain ⟨rd, hrd⟩ := Option.isSome_iff_exists.mp hd
  unfold blockingAncestor
  rw [hrd, updateState_stable hs hrd]

/-- The all-`PENDING` initial state satisfies the invariant. -/
theorem planInv_init (P : PlanSpec) : PlanInv P (fun _ => none) where
  dom := fun x r h => by simp at h
  run := fun x r h => by simp at h
  skip := fun x r h => by simp at h

/-- One scheduling decision preserves the invariant. -/
theorem planInv_update {P : PlanSpec} {st : PlanState} (hinv : PlanInv P st)
    {s : String} {r : StepResult}
    (hfind : findActionable P st P.steps = some (s, r)) :
    PlanInv P (updateState st s r) := by
  obtain ⟨hmem, hnone, hready, hcase⟩ := findActionable_some hfind
  have hother : ∀ x, x ≠ s → updateState st s r x = st x := by
    intro x hx; unfold updateState; rw [if_neg hx]
  have hsomeMono : ∀ d, (st d).isSome → (updateState st s r d).isSome := by
    intro d hd
    obtain ⟨rd, hrd⟩ := Option.isSome_iff_exists.mp hd
    rw [updateState_stable hnone hrd]; rfl
  refine ⟨?_, ?_, ?_⟩
  · intro x rx hx
    rcases eq_or_ne x s with rfl | hne
    · exact hmem
    · rw [hother x hne] at hx; exact hinv.dom x rx hx
  · intro x rx hx hinvk
    rcases eq_or_ne x s with rfl | hne
    · have hrx : rx = r := by
        have hxx : updateState st x r x = some r := by
          unfold updateState; rw [if_pos rfl]
        rw [hxx] at hx; exact (Option.some_inj.mp hx).symm
      subst hrx
      rcases hcase with ⟨hfs, rfl⟩ | ⟨a, hfs, rfl⟩
      · refine ⟨rfl, rfl, fun d hd => ?_⟩
        have hds := hready d hd
        refine ⟨hsomeMono d hds, ?_⟩
        rw [blockingAncestor_stable hnone hds]
        exact List.findSome?_eq_none_iff.mp hfs d hd
      · simp at hinvk
    · rw [hother x hne] at hx
      obtain ⟨h1, h2, h3⟩ := hinv.run x rx hx hinvk
      refine ⟨h1, h2, fun d hd => ?_⟩
      obtain ⟨hds, hblk⟩ := h3 d hd
      refine ⟨hsomeMono d hds, ?_⟩
      rw [blockingAncestor_stable hnone hds]; exact hblk
  · intro x rx hx hinvk
    rcases eq_or_ne x s with rfl | hne
    · have hrx : rx = r := by
        have hxx : updateState st x r x = some r := by
          unfold updateState; rw [if_pos rfl]
        rw [hxx] at hx; exact (Option.some_inj.mp hx).symm
      subst hrx
      rcases hcase with ⟨hfs, rfl⟩ | ⟨a, hfs, rfl⟩
      · simp at hinvk
      · obtain ⟨d, hd, hblk⟩ := List.exists_of_findSome?_eq_some hfs
        have hds := hready d hd
        obtain ⟨rd, hrd⟩ := Option.isSome_iff_exists.mp hds
        replace hblk :
            (if rd.status = .FAILED then some d else rd.failedAncestor) =
              some a := by
          unfold blockingAncestor at hblk; rw [hrd] at hblk; exact hblk
        refine ⟨rfl, a, rfl, ?_, ?_⟩
        · by_cases hfail : rd.status = .FAILED
          · rw [if_pos hfail] at hblk
            obtain rfl : d = a := Option.some_inj.mp hblk
            exact ⟨rd, updateState_stable hnone hrd, hfail⟩
          · rw [if_neg hfail] at hblk
            have hdinvk : rd.invoked = false := by
              by_contra hcon
              have h2 := (hinv.run d rd hrd (by simpa using hcon)).2.1
              rw [h2] at hblk; exact Option.noConfusion hblk
            obtain ⟨-, a', ha', ⟨ra, hra, hrafail⟩, -⟩ :=
              hinv.skip d rd hrd hdinvk
            rw [ha'] at hblk
            obtain rfl : a' = a := Option.some_inj.mp hblk
            exact ⟨ra, updateState_stable hnone hra, hrafail⟩
        · by_cases hfail : rd.status = .FAILED
          · rw [if_pos hfail] at hblk
            obtain rfl : d = a := Option.some_inj.mp hblk
            exact DependsOn.direct hd
          · rw [if_neg hfail] at hblk
            have hdinvk : rd.invoked = false := by
              by_contra hcon
              have h2 := (hinv.run d rd hrd (by simpa using hcon)).2.1
              rw [h2] at hblk; exact Option.noConfusion hblk
            obtain ⟨-, a', ha', -, hdep⟩ := hinv.skip d rd hrd hdinvk
            rw [ha'] at hblk
            obtain rfl : a' = a := Option.some_inj.mp hblk
            exact DependsOn.step hd hdep
    · rw [hother x hne] at hx
      obtain ⟨h1, a, h2, ⟨ra, hra, hrafail⟩, hdep⟩ :=
        hinv.skip x rx hx hinvk
      exact ⟨h1, a, h2, ⟨ra, updateState_stable hnone hra, hrafail⟩, hdep⟩

/-- The scheduling loop preserves the invariant. -/
theorem planInv_iterate (P : PlanSpec) :
    ∀ (fuel : Nat) (st : PlanState), PlanInv P st →
      PlanInv P (iterate P fuel st) := by
  intro fuel
  induction fuel with
  | zero => intro st h; exact h
  | succ n ih =>
    intro st h
    rw [iterate]
    cases hfind : findActionable P st P.steps with
    | none => exact h
    | some pair => exact ih _ (planInv_update h (by rw [hfind]))

/-- The final state of `Plan.execute` satisfies the invariant. -/
theorem planInv_execute (P : PlanSpec) : PlanInv P (Plan.execute P) :=
  planInv_iterate P P.steps.length _ (planInv_init P)

/-- The steps of the Plan that have not yet finished. -/
def unfinished (P : PlanSpec) (st : PlanState) : List String :=
  P.steps.filter fun s => (st s).isNone

/-- Finishing a not-yet-started step strictly shrinks the unfinished
list. -/
theorem unfinished_decreases {P : PlanSpec} {st : PlanState} {s : String}
    {r : StepResult} (hmem : s ∈ P.steps) (hnone : st s = none) :
    (unfinished P (updateState st s r)).length < (unfinished P st).length := by
  have hsub : List.Sublist (unfinished P (updateState st s r))
      (unfinished P st) := by
    apply List.monotone_filter_right
    intro x hx
    by_cases hxs : x = s
    · subst hxs
      have : updateState st x r x = some r := by
        unfold updateState; rw [if_pos rfl]
      rw [this] at hx; simp at hx
    · unfold updateState at hx; rw [if_neg hxs] at hx; exact hx
  have hsmem : s ∈ unfinished P st :=
    List.mem_filter.mpr ⟨hmem, by simp [hnone]⟩
  have hsnot : s ∉ unfinished P (updateState st s r) := by
    intro hcon
    have hp := (List.mem_filter.mp hcon).2
    have : updateState st s r s = some r := by
      unfold updateState; rw [if_pos rfl]
    rw [this] at hp; simp at hp
  refine Nat.lt_of_le_of_ne hsub.length_le (fun heq => ?_)
  rw [hsub.eq_of_length heq] at hsnot
  exact hsnot hsmem

/-- Progress: while some step is unfinished, a ready unfinished step
exists — found by descending the (ranked, hence acyclic) dependency
relation from any unfinished step. -/
theorem exists_ready (P : PlanSpec) (rank : String → Nat)
    (hrank : ∀ s ∈ P.steps, ∀ d ∈ P.deps s, rank d < rank s)
    (hclosed : ∀ s ∈ P.steps, ∀ d ∈ P.deps s, d ∈ P.steps)
    (st : PlanState) :
    ∀ (n : Nat) (u : String), rank u < n → u ∈ P.steps → st u = none →
      ∃ s, s ∈ P.steps ∧ st s = none ∧ ∀ d ∈ P.deps s, (st d).isSome := by
  intro n
  induction n with
  | zero => intro u h; exact absurd h (Nat.not_lt_zero _)
  | succ n ih =>
    intro u hu hmem hnone
    by_cases hall : ∀ d ∈ P.deps u, (st d).isSome
    · exact ⟨u, hmem, hnone, hall⟩
    · push_neg at hall
      obtain ⟨d, hd, hdnone⟩ := hall
      have hdn : st d = none := by
        cases h : st d with
        | none => rfl
        | some v => rw [h] at hdnone; simp at hdnone
      exact ih d (by have := hrank u hmem d hd; omega)
        (hclosed u hmem d hd) hdn

/-- With fuel at least the number of unfinished steps, the scheduling loop
finishes every step of an acyclic, dependency-closed Plan. -/
theorem iterate_finishes (P : PlanSpec) (rank : String → Nat)
    (hrank : ∀ s ∈ P.steps, ∀ d ∈ P.deps s, rank d < rank s)
    (hclosed : ∀ s ∈ P.steps, ∀ d ∈ P.deps s, d ∈ P.steps) :
    ∀ (fuel : Nat) (st : PlanState),
      (unfinished P st).length ≤ fuel →
      ∀ s ∈ P.steps, ((iterate P fuel st) s).isSome := by
  intro fuel
  induction fuel with
  | zero =>
    intro st hlen s hs
    rw [iterate]
    by_contra hcon
    have hnone : st s = none := Option.not_isSome_iff_eq_none.mp hcon
    have hmem : s ∈ unfinished P st :=
      List.mem_filter.mpr ⟨hs, by simp [hnone]⟩
    rw [List.eq_nil_of_length_eq_zero (Nat.le_zero.mp hlen)] at hmem
    simp at hmem
  | succ n ih =>
    intro st hlen s hs
    rw [iterate]
    cases hfind : findActionable P st P.steps with
    | none =>
      by_contra hcon
      have hnone : st s = none := Option.not_isSome_iff_eq_none.mp hcon
      obtain ⟨s', hs', hnone', hready'⟩ :=
        exists_ready P rank hrank hclosed st (rank s + 1) s
          (Nat.lt_succ_self _) hs hnone
      have hssome := findActionable_isSome (P := P) hs' hnone' hready'
      rw [hfind] at hssome; simp at hssome
    | some pair =>
      obtain ⟨s', r⟩ := pair
      obtain ⟨hmem', hnone', -, -⟩ := findActionable_some hfind
      have hdec := unfinished_decreases (r := r) hmem' hnone'
      exact ih (updateState st s' r) (by omega) s hs

/-- `Plan.execute` finishes every step of an acyclic, dependency-closed
Plan. -/
theorem execute_finishes (P : PlanSpec) (rank : String → Nat)
    (hrank : ∀ s ∈ P.steps, ∀ d ∈ P.deps s, rank d < rank s)
    (hclosed : ∀ s ∈ P.steps, ∀ d ∈ P.deps s, d ∈ P.steps) :
    ∀ s ∈ P.steps, ((Plan.execute P) s).isSome := by
  intro s hs
  have hlen : (unfinished P (fun _ => none)).length ≤ P.steps.length := by
    simp [unfinished]
  exact iterate_finishes P rank hrank hclosed P.steps.length _ hlen s hs

/-- A ranked dependency relation admits no dependency of a step on
itself. -/
theorem dependsOn_rank_lt {deps : String → List String}
    {steps : List String} (rank : String → Nat)
    (hrank : ∀ s ∈ steps, ∀ d ∈ deps s, rank d < rank s)
    (hclosed : ∀ s ∈ steps, ∀ d ∈ deps s, d ∈ steps) :
    ∀ {x y : String}, DependsOn deps x y → x ∈ steps → rank y < rank x := by
  intro x y h
  induction h with
  | direct hb => intro hx; exact hrank _ hx _ hb
  | step hb hdep ih =>
    intro hx
    exact lt_trans (ih (hclosed _ hx _ hb)) (hrank _ hx _ hb)

/-- In an acyclic, dependency-closed Plan whose only failing operation is
`D`'s, every step that does not transitively depend on `D` runs normally:
its operation is invoked and its status is the operation's own status. -/
theorem execute_runs_normally (P : PlanSpec) (rank : String → Nat)
    (hrank : ∀ s ∈ P.steps, ∀ d ∈ P.deps s, rank d < rank s)
    (hclosed : ∀ s ∈ P.steps, ∀ d ∈ P.deps s, d ∈ P.steps)
    (D : String) (huniq : ∀ s ∈ P.steps, s ≠ D → P.op s ≠ .FAILED) :
    ∀ u ∈ P.steps, ¬ DependsOn P.deps u D →
      ∃ ru, Plan.execute P u = some ru ∧ ru.invoked = true ∧
        ru.status = P.op u ∧ ru.failedAncestor = none := by
  intro u hu hnd
  have hinv := planInv_execute P
  obtain ⟨ru, hru⟩ := Option.isSome_iff_exists.mp
    (execute_finishes P rank hrank hclosed u hu)
  cases hinvk : ru.invoked with
  | false =>
    obtain ⟨-, a, -, ⟨ra, hra, hrafail⟩, hdep⟩ := hinv.skip u ru hru hinvk
    have hainvk : ra.invoked = true := by
      cases h : ra.invoked with
      | true => rfl
      | false =>
        have hsk := (hinv.skip a ra hra h).1
        rw [hsk] at hrafail
        exact Status.noConfusion hrafail
    have hopa : P.op a = .FAILED := by
      rw [← (hinv.run a ra hra hainvk).1]; exact hrafail
    have haD : a = D := by
      by_contra hne
      exact huniq a (hinv.dom a ra hra) hne hopa
    rw [haD] at hdep
    exact absurd hdep hnd
  | true =>
    obtain ⟨h1, h2, -⟩ := hinv.run u ru hru hinvk
    exact ⟨ru, hru, hinvk, h1, h2⟩

/-- In an acyclic, dependency-closed Plan whose only failing operation is
`D`'s, every step transitively depending on a step that ended `FAILED` is
skipped with a reason referencing `D`, its operation never invoked. -/
theorem execute_dependents_skipped (P : PlanSpec) (rank : String → Nat)
    (hrank : ∀ s ∈ P.steps, ∀ d ∈ P.deps s, rank d < rank s)
    (hclosed : ∀ s ∈ P.steps, ∀ d ∈ P.deps s, d ∈ P.steps)
    (D : String) (huniq : ∀ s ∈ P.steps, s ≠ D → P.op s ≠ .FAILED) :
    ∀ (S y : String), DependsOn P.deps S y → S ∈ P.steps →
      (∃ ry, Plan.execute P y = some ry ∧ ry.status = .FAILED) →
      ∃ rS, Plan.execute P S = some rS ∧ rS.status = .SKIPPED ∧
        rS.failedAncestor = some D ∧ rS.invoked = false := by
  have hinv := planInv_execute P
  have hskipD : ∀ x rx, Plan.execute P x = some rx → rx.invoked = false →
      rx.status = .SKIPPED ∧ rx.failedAncestor = some D := by
    intro x rx hx hxinvk
    obtain ⟨h1, a, h2, ⟨ra, hra, hrafail⟩, -⟩ := hinv.skip x rx hx hxinvk
    have hainvk : ra.invoked = true := by
      cases h : ra.invoked with
      | true => rfl
      | false =>
        have hsk := (hinv.skip a ra hra h).1
        rw [hsk] at hrafail
        exact Status.noConfusion hrafail
    have hopa : P.op a = .FAILED := by
      rw [← (hinv.run a ra hra hainvk).1]; exact hrafail
    have haD : a = D := by
      by_contra hne
      exact huniq a (hinv.dom a ra hra) hne hopa
    rw [haD] at h2
    exact ⟨h1, h2⟩
  intro S y hdep
  induction hdep with
  | direct hb =>
    rename_i x b
    intro hx ⟨rb, hrb, hrbfail⟩
    obtain ⟨rx, hrx⟩ := Option.isSome_iff_exists.mp
      (execute_finishes P rank hrank hclosed x hx)
    cases hinvk : rx.invoked with
    | true =>
      have hblk := ((hinv.run x rx hrx hinvk).2.2 b hb).2
      unfold blockingAncestor at hblk
      rw [hrb] at hblk
      replace hblk :
          (if rb.status = .FAILED then some b else rb.failedAncestor) =
            none := hblk
      rw [if_pos hrbfail] at hblk
      exact Option.noConfusion hblk
    | false =>
      obtain ⟨h1, h2⟩ := hskipD x rx hrx hinvk
      exact ⟨rx, hrx, h1, h2, hinvk⟩
  | step hb hdep ih =>
    rename_i x b c
    intro hx hc
    obtain ⟨rb, hrb, hrbskip, hrbanc, -⟩ := ih (hclosed x hx b hb) hc
    obtain ⟨rx, hrx⟩ := Option.isSome_iff_exists.mp
      (execute_finishes P rank hrank hclosed x hx)
    cases hinvk : rx.invoked with
    | true =>
      have hblk := ((hinv.run x rx hrx hinvk).2.2 b hb).2
      unfold blockingAncestor at hblk
      rw [hrb] at hblk
      replace hblk :
          (if rb.status = .FAILED then some b else rb.failedAncestor) =
            none := hblk
      rw [if_neg (by rw [hrbskip]; exact fun h => Status.noConfusion h),
        hrbanc] at hblk
      exact Option.noConfusion hblk
    | false =>
      obtain ⟨h1, h2⟩ := hskipD x rx hrx hinvk
      exact ⟨rx, hrx, h1, h2, hinvk⟩

/-- C3: in any acyclic (ranked), dependency-closed Plan in which `D`'s
operation is the one that fails, `D` ends `FAILED`: every transitive
dependent `S` of `D` in the active direction ends `SKIPPED` with its
reason referencing the failed ancestor `D` and its operation never
invoked; `D` is in the `PlanOutcome` failed set; and every step with no
path to or from `D` executes unaffected — its operation is invoked and
yields its own status. -/
theorem plan_failure_propagation (P : PlanSpec) (rank : String → Nat)
    (hrank : ∀ s ∈ P.steps, ∀ d ∈ P.deps s, rank d < rank s)
    (hclosed : ∀ s ∈ P.steps, ∀ d ∈ P.deps s, d ∈ P.steps)
    (D : String) (hD : D ∈ P.steps) (hopD : P.op D = .FAILED)
    (huniq : ∀ s ∈ P.steps, s ≠ D → P.op s ≠ .FAILED) :
    (∀ S ∈ P.steps, DependsOn P.deps S D →
      ∃ rS, Plan.execute P S = some rS ∧ rS.status = .SKIPPED ∧
        rS.failedAncestor = some D ∧ rS.invoked = false) ∧
    D ∈ Plan.failedSet P ∧
    (∀ u ∈ P.steps, ¬ DependsOn P.deps u D → ¬ DependsOn P.deps D u →
      ∃ ru, Plan.execute P u = some ru ∧ ru.invoked = true ∧
        ru.status = P.op u) := by
  have hnotDD : ¬ DependsOn P.deps D D := fun h =>
    absurd (dependsOn_rank_lt rank hrank hclosed h hD) (lt_irrefl _)
  obtain ⟨rD, hrD, hrDinvk, hrDstat, -⟩ :=
    execute_runs_normally P rank hrank hclosed D huniq D hD hnotDD
  have hrDfail : rD.status = .FAILED := hrDstat.trans hopD
  refine ⟨?_, ?_, ?_⟩
  · intro S hS hdep
    exact execute_dependents_skipped P rank hrank hclosed D huniq S D
      hdep hS ⟨rD, hrD, hrDfail⟩
  · have hpred : (match Plan.execute P D with
        | some r => decide (r.status = .FAILED)
        | none => false) = true := by
      rw [hrD]; simp [hrDfail]
    unfold Plan.failedSet
    exact List.mem_filter.mpr ⟨hD, hpred⟩
  · intro u hu hnd hnd2
    obtain ⟨ru, h1, h2, h3, -⟩ :=
      execute_runs_normally P rank hrank hclosed D huniq u hu hnd
    exact ⟨ru, h1, h2, h3⟩

/-- The test stacks as a Plan in which `db`'s operation fails and every
other operation completes. -/
def examplePlan : PlanSpec where
  steps := ["vpc", "bastion", "instance", "db", "other"]
  deps := fun n =>
    match n with
    | "bastion" => ["vpc"]
    | "instance" => ["vpc", "bastion"]
    | "db" => ["instance", "vpc", "bastion"]
    | "other" => ["db"]
    | _ => []
  op := fun n => if n = "db" then .FAILED else .COMPLETE

/-- A topological rank for `examplePlan`. -/
def exampleRank : String → Nat := fun n =>
  match n with
  | "vpc" => 0
  | "bastion" => 1
  | "instance" => 2
  | "db" => 3
  | "other" => 4
  | _ => 0

/-- Witness for C3: with `db` failing, `other` (which requires `db`) is
skipped with `db` as the referenced failed ancestor and its operation
never invoked, and `db` appears in the failed set. -/
theorem plan_failure_propagation_witness :
    (∃ rS, Plan.execute examplePlan "other" = some rS ∧
      rS.status = .SKIPPED ∧ rS.failedAncestor = some "db" ∧
      rS.invoked = false) ∧
    "db" ∈ Plan.failedSet examplePlan := by
  have h := plan_failure_propagation examplePlan exampleRank
    (by decide) (by decide) "db" (by decide) (by decide) (by decide)
  exact ⟨h.1 "other" (by decide) (DependsOn.direct (by decide)), h.2.1⟩

end Runway
